import Mathlib

/-!
Verification of the document ingestion and retrieval core of the
`sp500_agentic_ai` repository: the character chunker `_chunk_text`
(`server/ingest/extract_text.py`), the chunk resequencer `resequence`, the
batched writer `insert_batches` and the batch extraction loop of `main`
(`server/ingest/embeddings.py`), and the scoped retrieval / expansion logic
of `search_docs_auto` (`server/tools.py`).

Python strings are modelled as `List Char` (a Python `str` is a sequence of
code points, and the chunker only slices by code-point index); Python `int`
parameters that are non-negative in every claim are modelled as `Nat`
(slice arithmetic `i = j - overlap; if i < 0: i = 0` is exactly truncated
subtraction); database/store effects are modelled by explicit outcome
functions and traces; a raised exception is `Except.error`.
-/

namespace SP500Ingest

/-- The `Chunk` dataclass of `server/ingest/extract_text.py`. The optional
`symbol`/`title`/`url` attributes stamped later in `embeddings.py` are
omitted: no claim treated here depends on them. -/
structure Chunk where
  doc_id : String
  chunk_id : String
  page_no : Option Nat
  chunk_no : Nat
  text : List Char
deriving DecidableEq, Repr

/-- Python `str.strip()`: drop leading whitespace, then trailing whitespace. -/
def pyStrip (s : List Char) : List Char :=
  ((s.dropWhile Char.isWhitespace).reverse.dropWhile Char.isWhitespace).reverse

/-- The `while i < len(text)` loop of `_chunk_text`, with explicit fuel;
`none` models non-termination (the loop has no exit other than `break` at
end-of-text or the guard going false). Python slice `text[i:j]` is
`(t.drop i).take (j - i)`; `j = min(i + max_chars, len(text))`;
`i = j - overlap` floored at `0` is truncated subtraction on `Nat`. -/
def chunkLoopFuel (t : List Char) (maxChars overlap : Nat) :
    Nat → Nat → Option (List (List Char))
  | 0, _ => none
  | fuel + 1, i =>
    if i < t.length then
      if min (i + maxChars) t.length = t.length then
        some [(t.drop i).take (min (i + maxChars) t.length - i)]
      else
        (chunkLoopFuel t maxChars overlap fuel (min (i + maxChars) t.length - overlap)).map
          (fun cs => (t.drop i).take (min (i + maxChars) t.length - i) :: cs)
    else some []

/-- Model of `_chunk_text` from `server/ingest/extract_text.py`: strip the text;
empty → no chunks; `len(text) ≤ max_chars` → the single chunk unchanged;
otherwise the sliding-window loop. Fuel `length + 1` covers every
terminating run of the Python loop (each emitted chunk advances the offset
by at least one whenever `overlap < max_chars`, and at most `length` chunks
can be emitted before the offset reaches the end), so a `none` result means
the Python loop runs forever. -/
def _chunk_text (s : List Char) (maxChars overlap : Nat) : Option (List (List Char)) :=
  let t := pyStrip s
  if t.length = 0 then some []
  else if t.length ≤ maxChars then some [t]
  else chunkLoopFuel t maxChars overlap (t.length + 1) 0

/-- Offset view of `chunkLoopFuel`: the `[i, j)` spans the loop slices out,
same recursion, used to reason about chunk offsets. -/
def chunkSpans (len maxChars overlap : Nat) : Nat → Nat → Option (List (Nat × Nat))
  | 0, _ => none
  | fuel + 1, i =>
    if i < len then
      if min (i + maxChars) len = len then some [(i, len)]
      else
        (chunkSpans len maxChars overlap fuel (min (i + maxChars) len - overlap)).map
          (fun l => (i, min (i + maxChars) len) :: l)
    else some []

/-- Worker for first-occurrence deduplication: keep an element iff it is not
in `seen`, extending `seen` as elements are kept. -/
def firstDedupGo : List String → List String → List String
  | [], _ => []
  | x :: xs, seen =>
    if x ∈ seen then firstDedupGo xs seen else x :: firstDedupGo xs (x :: seen)

/-- First-occurrence deduplication: the distinct elements of a list in the
order they first appear. This is the key-insertion order of the Python
`defaultdict` built by `resequence` (Python dicts preserve insertion order),
and also the plain-language "first distinct values in the order they first
appear" used by the expansion contract. -/
def firstDedup (l : List String) : List String :=
  firstDedupGo l []

/-- The inner numbering loop of `resequence` (`server/ingest/embeddings.py`):
walk one document's chunks with the counter `seq`, overwriting `chunk_no`
with the counter and `chunk_id` with `f"{doc_id}:{seq}"`. -/
def renumber (d : String) (seq : Nat) : List Chunk → List Chunk
  | [] => []
  | ch :: rest =>
    { ch with chunk_no := seq, chunk_id := d ++ ":" ++ toString seq } :: renumber d (seq + 1) rest

/-- Model of `resequence` from `server/ingest/embeddings.py`: group the chunks by
`doc_id` (the `defaultdict` keeps keys in first-appearance order and each
group in original relative order, so the group of `d` is
`chunks.filter (doc_id = d)`), then renumber every group from `0` and
concatenate the groups in key order. -/
def resequence (chunks : List Chunk) : List Chunk :=
  (firstDedup (chunks.map (fun ch => ch.doc_id))).flatMap
    (fun d => renumber d 0 (chunks.filter (fun ch => decide (ch.doc_id = d))))

/-- The batch layout produced by the buffering in `insert_batches`:
empty-text rows are skipped, the buffer flushes each time it reaches
`batchSize`, and a final partial buffer flushes at the end. -/
def batchesGo (batchSize : Nat) : List Chunk → List Chunk → List (List Chunk)
  | [], buf => if buf.isEmpty then [] else [buf]
  | r :: rs, buf =>
    if r.text = [] then batchesGo batchSize rs buf
    else if batchSize ≤ buf.length + 1 then (buf ++ [r]) :: batchesGo batchSize rs []
    else batchesGo batchSize rs (buf ++ [r])

/-- All batches `insert_batches` would send on an error-free run. -/
def batches (batchSize : Nat) (rows : List Chunk) : List (List Chunk) :=
  batchesGo batchSize rows []

/-- Model of `insert_batches` from `server/ingest/embeddings.py`. The store call
`conn.execute(...); conn.commit()` is modelled by `ok : Nat → Bool` on the
index of the call: `true` = the batch INSERT succeeds and commits, `false` =
the store raises and the exception propagates out of the function
(`Except.error ()`; the Python code has no `try`/`except` around the call).
Besides the Python result (the running `total`), the embedding returns the
trace of batches actually sent, in order, so that what reached the store is
part of the observable behaviour. -/
def insertBatchesGo (ok : Nat → Bool) (batchSize : Nat) :
    List Chunk → List Chunk → Nat → Nat → List (List Chunk) →
    Except Unit Nat × List (List Chunk)
  | [], buf, ci, total, tr =>
    if buf.isEmpty then (.ok total, tr.reverse)
    else if ok ci then (.ok (total + buf.length), (buf :: tr).reverse)
    else (.error (), (buf :: tr).reverse)
  | r :: rs, buf, ci, total, tr =>
    if r.text = [] then insertBatchesGo ok batchSize rs buf ci total tr
    else if batchSize ≤ buf.length + 1 then
      if ok ci then
        insertBatchesGo ok batchSize rs [] (ci + 1) (total + (buf.length + 1)) ((buf ++ [r]) :: tr)
      else (.error (), ((buf ++ [r]) :: tr).reverse)
    else insertBatchesGo ok batchSize rs (buf ++ [r]) ci total tr

/-- Entry point of the `insert_batches` model: empty buffer, call index 0,
zero total, empty trace. -/
def insert_batches (ok : Nat → Bool) (rows : List Chunk) (batchSize : Nat) :
    Except Unit Nat × List (List Chunk) :=
  insertBatchesGo ok batchSize rows [] 0 0 []

/-- The per-file extraction loop of `main` in `server/ingest/embeddings.py`
(`for path in iter_paths(...): chunks = extract_to_chunks(path, ...);
all_chunks.extend(chunks)`), with each file's extraction outcome abstracted
to an `Except` value: `.error` = `extract_to_chunks` raised for that file
(unreadable file, corrupt PDF, OCR failure). The loop body has no
`try`/`except`, so the first raised exception propagates and the loop's
accumulated chunks are lost. -/
def mainExtractLoop : List (Except Unit (List Chunk)) → Except Unit (List Chunk)
  | [] => .ok []
  | .error e :: _ => .error e
  | .ok cs :: rest => (mainExtractLoop rest).map (fun acc => cs ++ acc)

/-- A persisted row of the `user_chat_docs` table as selected by the
retrieval SQL in `server/tools.py`. -/
structure Row where
  chunk_id : String
  doc_id : String
  page_no : Option Nat
  symbol : Option String
  title : Option String
  url : Option String
  text : List Char
  chunk_no : Nat
deriving DecidableEq, Repr

/-- SQL `ORDER BY` on a numeric key. For the search queries the key is
`d = VEC_EMBED_COSINE_DISTANCE(vec, query)`, computed by the store and
opaque to the engine, so it is abstracted as `dist : Row → Nat` (any totally
ordered score; the code relies on nothing but the ordering). -/
def sqlOrderBy (key : Row → Nat) (rows : List Row) : List Row :=
  rows.mergeSort (fun a b => decide (key a ≤ key b))

/-- The scope filter of `search_docs_auto`: the SQL conditions
`t.symbol = 'X'` and/or `t.doc_id = 'Y'`, one per optional argument the
caller actually passed (Python appends each condition only when the
argument is truthy). -/
def scopeMatch (symbol docId : Option String) (r : Row) : Bool :=
  (match symbol with
   | none => true
   | some s => decide (r.symbol = some s)) &&
  (match docId with
   | none => true
   | some d2 => decide (r.doc_id = d2))

/-- The hit-list computation of `search_docs_auto` (`server/tools.py`):
inner query = all rows ordered by distance, `LIMIT max(k*6, 50)`; outer
query = scope filter over the inner rows, `ORDER BY d LIMIT k`. -/
def search_docs_auto (table : List Row) (dist : Row → Nat) (k : Nat)
    (symbol docId : Option String) : List Row :=
  let innerLimit := max (k * 6) 50
  let inner := (sqlOrderBy dist table).take innerLimit
  let filtered := inner.filter (scopeMatch symbol docId)
  (sqlOrderBy dist filtered).take k

/-- The distinct-`doc_id` selection loop of `search_docs_auto`: a `seen` set
plus a `top_doc_ids` list, with `break` as soon as the list holds
`expand_docs_top_n` ids; the check runs after each iteration exactly as in
the Python loop. `acc` holds the collected ids in reverse. -/
def topDocIdsGo (n : Nat) : List Row → List String → List String
  | [], acc => acc.reverse
  | h :: hs, acc =>
    let acc' := if h.doc_id ∈ acc then acc else h.doc_id :: acc
    if n ≤ acc'.length then acc'.reverse else topDocIdsGo n hs acc'

/-- The per-document fetch of the expansion phase: SQL
`WHERE doc_id = did ORDER BY chunk_no LIMIT max_chunks_per_doc`. -/
def fetchDocChunks (table : List Row) (did : String) (maxChunksPerDoc : Nat) : List Row :=
  (sqlOrderBy (fun r => r.chunk_no)
      (table.filter (fun r => decide (r.doc_id = did)))).take maxChunksPerDoc

/-- The expansion phase of `search_docs_auto`: when `expand_docs_top_n > 0`
and the hit list is non-empty, fetch full per-document context for the
selected `doc_id`s. The association list models the insertion-ordered
Python dict `expanded`. -/
def expandDocs (table : List Row) (hits : List Row) (n maxChunksPerDoc : Nat) :
    List (String × List Row) :=
  if 0 < n ∧ hits ≠ [] then
    (topDocIdsGo n hits []).map (fun did => (did, fetchDocChunks table did maxChunksPerDoc))
  else []

/-- Sample chunk used in concrete witness instances. -/
def cX : Chunk :=
  { doc_id := "docA", chunk_id := "docA:7", page_no := some 1, chunk_no := 7, text := [ 'x' ] }

/-- Second sample chunk used in concrete witness instances. -/
def cY : Chunk :=
  { doc_id := "docB", chunk_id := "docB:3", page_no := none, chunk_no := 3, text := [ 'y' ] }

/-- Sample chunk with empty text. -/
def cEmpty : Chunk :=
  { doc_id := "docA", chunk_id := "e", page_no := none, chunk_no := 5, text := [] }

/-- Sample row used in concrete witness instances. -/
def rA : Row :=
  { chunk_id := "docA:0", doc_id := "docA", page_no := none, symbol := some "AAPL",
    title := none, url := none, text := [ 'a' ], chunk_no := 0 }

/-- Second sample row used in concrete witness instances. -/
def rB : Row :=
  { chunk_id := "docB:0", doc_id := "docB", page_no := none, symbol := none,
    title := none, url := none, text := [ 'b' ], chunk_no := 0 }

/-! ## Basic equations of the chunker loop -/

theorem chunkLoopFuel_zero (t : List Char) (mc ov i : Nat) :
    chunkLoopFuel t mc ov 0 i = none := rfl

theorem chunkLoopFuel_succ (t : List Char) (mc ov fuel i : Nat) :
    chunkLoopFuel t mc ov (fuel + 1) i =
      if i < t.length then
        if min (i + mc) t.length = t.length then
          some [(t.drop i).take (min (i + mc) t.length - i)]
        else
          (chunkLoopFuel t mc ov fuel (min (i + mc) t.length - ov)).map
            (fun cs => (t.drop i).take (min (i + mc) t.length - i) :: cs)
      else some [] := rfl

theorem chunkSpans_zero (len mc ov i : Nat) : chunkSpans len mc ov 0 i = none := rfl

theorem chunkSpans_succ (len mc ov fuel i : Nat) :
    chunkSpans len mc ov (fuel + 1) i =
      if i < len then
        if min (i + mc) len = len then some [(i, len)]
        else
          (chunkSpans len mc ov fuel (min (i + mc) len - ov)).map
            (fun l => (i, min (i + mc) len) :: l)
      else some [] := rfl

/-! ## Termination of the chunker loop (claims C9, C2) -/

theorem chunkLoopFuel_isSome (t : List Char) (mc ov : Nat) (hov : ov < mc) :
    ∀ fuel i : Nat, t.length - i < fuel → (chunkLoopFuel t mc ov fuel i).isSome := by
  intro fuel
  induction fuel with
  | zero => intro i hi; omega
  | succ f ih =>
    intro i hi
    rw [chunkLoopFuel_succ]
    by_cases h1 : i < t.length
    · rw [if_pos h1]
      by_cases h2 : min (i + mc) t.length = t.length
      · rw [if_pos h2]; rfl
      · rw [if_neg h2]
        have := ih (min (i + mc) t.length - ov) (by omega)
        cases hres : chunkLoopFuel t mc ov f (min (i + mc) t.length - ov) with
        | none => rw [hres] at this; simp at this
        | some cs => rfl
    · rw [if_neg h1]; rfl

/-- Claim C9: for every input text and all parameters with
`0 ≤ overlap < max_chars`, the chunking loop of `_chunk_text` terminates
(the fuelled model completes within `length + 1` steps, because every
continuing iteration advances the offset by `max_chars - overlap ≥ 1`). -/
theorem chunker_terminates (s : List Char) (mc ov : Nat) (hov : ov < mc) :
    (_chunk_text s mc ov).isSome := by
  unfold _chunk_text
  by_cases h0 : (pyStrip s).length = 0
  · rw [if_pos h0]; rfl
  · rw [if_neg h0]
    by_cases h1 : (pyStrip s).length ≤ mc
    · rw [if_pos h1]; rfl
    · rw [if_neg h1]
      exact chunkLoopFuel_isSome (pyStrip s) mc ov hov _ 0 (by omega)

/-- Witness for C9 at a concrete input. -/
theorem chunker_terminates_witness :
    (_chunk_text [ 'a', 'b', 'c', 'd', 'e' ] 3 1).isSome :=
  chunker_terminates [ 'a', 'b', 'c', 'd', 'e' ] 3 1 (by decide)

theorem chunkLoopFuel_none_of_overlap_ge (t : List Char) (mc ov : Nat) (hov : mc ≤ ov) :
    ∀ fuel i : Nat, i + mc < t.length → chunkLoopFuel t mc ov fuel i = none := by
  intro fuel
  induction fuel with
  | zero => intro i _; rfl
  | succ f ih =>
    intro i hi
    rw [chunkLoopFuel_succ]
    rw [if_pos (by omega), if_neg (by omega),
        ih (min (i + mc) t.length - ov) (by omega)]
    rfl

/-- Claim C2 (the bug): `_chunk_text` has no configuration guard at all: a
call with `overlap ≥ max_chars` on a stripped text longer than `max_chars`
is not rejected with a configuration error — it never returns. The offset
falls back to `0` (or below the chunk end) after every chunk, so no fuel
suffices; the `none` result is exactly non-termination of the Python
`while` loop. -/
theorem chunker_no_config_guard (s : List Char) (mc ov : Nat)
    (hov : mc ≤ ov) (hlen : mc < (pyStrip s).length) :
    _chunk_text s mc ov = none := by
  unfold _chunk_text
  rw [if_neg (by omega), if_neg (by omega)]
  exact chunkLoopFuel_none_of_overlap_ge (pyStrip s) mc ov hov _ 0 (by omega)

/-- Witness for C2 at the concrete failing input: text `"aaa"`,
`max_chars = 2`, `overlap = 2` — the call diverges instead of raising a
configuration error. -/
theorem chunker_no_config_guard_witness :
    _chunk_text [ 'a', 'a', 'a' ] 2 2 = none :=
  chunker_no_config_guard [ 'a', 'a', 'a' ] 2 2 (by decide) (by decide)

/-! ## The 12,300-character scenario (claim C3) -/

theorem dropWhile_replicate_of_not (c : Char) (h : Char.isWhitespace c = false) (n : Nat) :
    List.dropWhile Char.isWhitespace (List.replicate n c) = List.replicate n c := by
  cases n with
  | zero => rfl
  | succ m => rw [List.replicate_succ, List.dropWhile_cons, h]; simp

theorem pyStrip_replicate (c : Char) (h : Char.isWhitespace c = false) (n : Nat) :
    pyStrip (List.replicate n c) = List.replicate n c := by
  unfold pyStrip
  rw [dropWhile_replicate_of_not c h, List.reverse_replicate,
      dropWhile_replicate_of_not c h, List.reverse_replicate]

theorem chunkLoop_12300 (s : List Char) (h2 : s.length = 12300) :
    chunkLoopFuel s 6000 300 12301 0 =
      some [s.take 6000, (s.drop 5700).take 6000, (s.drop 11400).take 900] := by
  have e3 : chunkLoopFuel s 6000 300 12299 11400 = some [(s.drop 11400).take 900] := by
    rw [show (12299 : Nat) = 12298 + 1 from rfl, chunkLoopFuel_succ, h2]
    norm_num
  have e2 : chunkLoopFuel s 6000 300 12300 5700 =
      some [(s.drop 5700).take 6000, (s.drop 11400).take 900] := by
    rw [show (12300 : Nat) = 12299 + 1 from rfl, chunkLoopFuel_succ, h2]
    norm_num [e3]
  rw [show (12301 : Nat) = 12300 + 1 from rfl, chunkLoopFuel_succ, h2]
  norm_num [e2]

/-- Claim C3, amended: chunking a 12,300-character (already-stripped) text
with `max_chars = 6000, overlap = 300` yields exactly three chunks starting
at offsets `[0, 5700, 11400]`, of lengths `[6000, 6000, 900]` — not
`[6000, 6000, 300]` as the spec scenario states: the final chunk runs from
offset `11400` (the second chunk's end `11700` minus the overlap `300`) to
the end of the text at `12300`, hence has `900` characters. -/
theorem chunk_scenario_12300 (s : List Char) (h1 : pyStrip s = s) (h2 : s.length = 12300) :
    _chunk_text s 6000 300 =
      some [s.take 6000, (s.drop 5700).take 6000, (s.drop 11400).take 900]
    ∧ (s.take 6000).length = 6000
    ∧ ((s.drop 5700).take 6000).length = 6000
    ∧ ((s.drop 11400).take 900).length = 900 := by
  refine ⟨?_, ?_, ?_, ?_⟩
  · unfold _chunk_text
    rw [h1]
    rw [if_neg (by omega), if_neg (by omega), h2]
    exact chunkLoop_12300 s h2
  · rw [List.length_take, h2]; omega
  · rw [List.length_take, List.length_drop, h2]; omega
  · rw [List.length_take, List.length_drop, h2]; omega

/-- Witness for the amended C3 at a concrete 12,300-character text. -/
theorem chunk_scenario_12300_witness :
    _chunk_text (List.replicate 12300 'a') 6000 300 =
      some [(List.replicate 12300 'a').take 6000,
            ((List.replicate 12300 'a').drop 5700).take 6000,
            ((List.replicate 12300 'a').drop 11400).take 900]
    ∧ ((List.replicate 12300 'a').take 6000).length = 6000
    ∧ (((List.replicate 12300 'a').drop 5700).take 6000).length = 6000
    ∧ (((List.replicate 12300 'a').drop 11400).take 900).length = 900 :=
  chunk_scenario_12300 (List.replicate 12300 'a')
    (pyStrip_replicate 'a' (by decide) 12300) (by rw [List.length_replicate])

/-- Counterexample to C3 as stated: at a concrete 12,300-character text the
chunk lengths are `[6000, 6000, 900]`, not `[6000, 6000, 300]`. -/
theorem chunk_scenario_12300_counterexample :
    (_chunk_text (List.replicate 12300 'a') 6000 300).map (fun cs => cs.map List.length) ≠
      some [6000, 6000, 300] := by
  have h1 : pyStrip (List.replicate 12300 'a') = List.replicate 12300 'a' :=
    pyStrip_replicate 'a' (by decide) 12300
  have h2 : (List.replicate 12300 'a').length = 12300 := by rw [List.length_replicate]
  have hmain : _chunk_text (List.replicate 12300 'a') 6000 300 =
      some [(List.replicate 12300 'a').take 6000,
            ((List.replicate 12300 'a').drop 5700).take 6000,
            ((List.replicate 12300 'a').drop 11400).take 900] := by
    unfold _chunk_text
    rw [h1, if_neg (by omega), if_neg (by omega), h2]
    exact chunkLoop_12300 _ h2
  rw [hmain]
  have l1 : ((List.replicate 12300 'a').take 6000).length = 6000 := by
    rw [List.length_take, h2]; omega
  have l2 : (((List.replicate 12300 'a').drop 5700).take 6000).length = 6000 := by
    rw [List.length_take, List.length_drop, h2]; omega
  have l3 : (((List.replicate 12300 'a').drop 11400).take 900).length = 900 := by
    rw [List.length_take, List.length_drop, h2]; omega
  simp only [Option.map_some', List.map_cons, List.map_nil, l1, l2, l3]
  intro h
  simp only [Option.some.injEq, List.cons.injEq] at h
  omega

/-! ## Offset structure of the chunker (claim C10) -/

theorem chunkLoopFuel_eq_spans (t : List Char) (mc ov : Nat) :
    ∀ fuel i : Nat,
      chunkLoopFuel t mc ov fuel i =
        (chunkSpans t.length mc ov fuel i).map
          (List.map (fun pr => (t.drop pr.1).take (pr.2 - pr.1))) := by
  intro fuel
  induction fuel with
  | zero => intro i; rfl
  | succ f ih =>
    intro i
    rw [chunkLoopFuel_succ, chunkSpans_succ]
    by_cases h1 : i < t.length
    · rw [if_pos h1, if_pos h1]
      by_cases h2 : min (i + mc) t.length = t.length
      · rw [if_pos h2, if_pos h2, h2]
        rfl
      · rw [if_neg h2, if_neg h2, ih]
        cases chunkSpans t.length mc ov f (min (i + mc) t.length - ov) with
        | none => rfl
        | some l => rfl
    · rw [if_neg h1, if_neg h1]; rfl

theorem chunkSpans_ok (len mc ov : Nat) (hov : ov < mc) :
    ∀ fuel i : Nat, len - i < fuel → i < len →
      ∃ l, chunkSpans len mc ov fuel i = some l ∧
        l.head? = some (i, min (i + mc) len) ∧
        (∃ prL, l.getLast? = some prL ∧ prL.2 = len) ∧
        (∀ pr ∈ l, pr.1 < pr.2 ∧ pr.2 = min (pr.1 + mc) len) ∧
        l.Chain' (fun p q => q.1 = p.2 - ov) ∧
        (∀ p, i ≤ p → p < len → ∃ pr ∈ l, pr.1 ≤ p ∧ p < pr.2) := by
  intro fuel
  induction fuel with
  | zero => intro i h hi; omega
  | succ f ih =>
    intro i hfuel hi
    rw [chunkSpans_succ, if_pos hi]
    by_cases h2 : min (i + mc) len = len
    · refine ⟨[(i, len)], by rw [if_pos h2], ?_, ⟨(i, len), rfl, rfl⟩, ?_,
        List.chain'_singleton _, ?_⟩
      · rw [h2]; rfl
      · intro pr hpr
        simp only [List.mem_singleton] at hpr
        subst hpr
        exact ⟨hi, by simpa using h2.symm⟩
      · intro p hp1 hp2
        exact ⟨(i, len), by simp, hp1, hp2⟩
    · rw [if_neg h2]
      have hjlt : i + mc < len := by omega
      obtain ⟨l', hl', hhead, hlast, hall, hchain, hcover⟩ :=
        ih (min (i + mc) len - ov) (by omega) (by omega)
      rw [hl']
      refine ⟨(i, min (i + mc) len) :: l', rfl, rfl, ?_, ?_, ?_, ?_⟩
      · cases l' with
        | nil => simp at hhead
        | cons b tl =>
          obtain ⟨prL, hprL, hprL2⟩ := hlast
          exact ⟨prL, by rw [List.getLast?_cons_cons]; exact hprL, hprL2⟩
      · intro pr hpr
        rcases List.mem_cons.mp hpr with h | h
        · subst h
          exact ⟨by omega, rfl⟩
        · exact hall pr h
      · cases l' with
        | nil => simp at hhead
        | cons b tl =>
          rw [List.chain'_cons]
          have hb : b = (min (i + mc) len - ov,
              min (min (i + mc) len - ov + mc) len) := by
            simpa using hhead
          exact ⟨by rw [hb], hchain⟩
      · intro p hp1 hp2
        by_cases hpj : p < min (i + mc) len
        · exact ⟨(i, min (i + mc) len), List.mem_cons_self _ _, hp1, hpj⟩
        · obtain ⟨pr, hpr, hpr1, hpr2⟩ := hcover p (by omega) hp2
          exact ⟨pr, List.mem_cons_of_mem _ hpr, hpr1, hpr2⟩

/-- Claim C10: for a non-empty stripped text and `0 ≤ overlap < max_chars`,
the chunk list exists (`some`) and is exactly the slices of a span list in
which the first span starts at offset `0`, the last span ends at the end of
the stripped text, every span `[a, b)` is non-empty with
`b = min(a + max_chars, len)` (so every chunk is a non-empty contiguous
substring of the stripped text), each successive span starts exactly
`overlap` characters before the previous span's end (truncated at `0`), and
every character position of the stripped text lies inside at least one span
— chunking loses no text. -/
theorem chunk_coverage (s : List Char) (mc ov : Nat) (hov : ov < mc)
    (hne : pyStrip s ≠ []) :
    ∃ spans : List (Nat × Nat),
      _chunk_text s mc ov =
        some (spans.map (fun pr => ((pyStrip s).drop pr.1).take (pr.2 - pr.1))) ∧
      (∃ pr0, spans.head? = some pr0 ∧ pr0.1 = 0) ∧
      (∃ prL, spans.getLast? = some prL ∧ prL.2 = (pyStrip s).length) ∧
      (∀ pr ∈ spans, pr.1 < pr.2 ∧ pr.2 = min (pr.1 + mc) (pyStrip s).length) ∧
      spans.Chain' (fun p q => q.1 = p.2 - ov) ∧
      (∀ p, p < (pyStrip s).length → ∃ pr ∈ spans, pr.1 ≤ p ∧ p < pr.2) := by
  have hlen : 0 < (pyStrip s).length := List.length_pos.mpr hne
  unfold _chunk_text
  by_cases hsmall : (pyStrip s).length ≤ mc
  · rw [if_neg (by omega), if_pos hsmall]
    refine ⟨[(0, (pyStrip s).length)], ?_, ⟨(0, (pyStrip s).length), rfl, rfl⟩,
      ⟨(0, (pyStrip s).length), rfl, rfl⟩, ?_, List.chain'_singleton _, ?_⟩
    · simp [List.take_length]
    · intro pr hpr
      simp only [List.mem_singleton] at hpr
      subst hpr
      refine ⟨hlen, ?_⟩
      show (pyStrip s).length = min (0 + mc) (pyStrip s).length
      omega
    · intro p hp
      exact ⟨(0, (pyStrip s).length), by simp, Nat.zero_le _, hp⟩
  · rw [if_neg (by omega), if_neg hsmall, chunkLoopFuel_eq_spans]
    obtain ⟨l, hl, hhead, hlast, hall, hchain, hcover⟩ :=
      chunkSpans_ok (pyStrip s).length mc ov hov ((pyStrip s).length + 1) 0
        (by omega) (by omega)
    rw [hl]
    exact ⟨l, rfl, ⟨(0, min (0 + mc) (pyStrip s).length), hhead, rfl⟩, hlast, hall,
      hchain, fun p hp => hcover p (Nat.zero_le _) hp⟩

/-- Witness for C10 at a concrete input (`"abcde"`, `max_chars = 3`,
`overlap = 1`). -/
theorem chunk_coverage_witness :
    ∃ spans : List (Nat × Nat),
      _chunk_text [ 'a', 'b', 'c', 'd', 'e' ] 3 1 =
        some (spans.map
          (fun pr => ((pyStrip [ 'a', 'b', 'c', 'd', 'e' ]).drop pr.1).take (pr.2 - pr.1))) ∧
      (∃ pr0, spans.head? = some pr0 ∧ pr0.1 = 0) ∧
      (∃ prL, spans.getLast? = some prL ∧
        prL.2 = (pyStrip [ 'a', 'b', 'c', 'd', 'e' ]).length) ∧
      (∀ pr ∈ spans, pr.1 < pr.2 ∧
        pr.2 = min (pr.1 + 3) (pyStrip [ 'a', 'b', 'c', 'd', 'e' ]).length) ∧
      spans.Chain' (fun p q => q.1 = p.2 - 1) ∧
      (∀ p, p < (pyStrip [ 'a', 'b', 'c', 'd', 'e' ]).length →
        ∃ pr ∈ spans, pr.1 ≤ p ∧ p < pr.2) :=
  chunk_coverage [ 'a', 'b', 'c', 'd', 'e' ] 3 1 (by decide) (by decide)

/-! ## The resequencer (claims C1, C8) -/

theorem renumber_map_chunk_no (d : String) (seq : Nat) (l : List Chunk) :
    (renumber d seq l).map (fun ch => ch.chunk_no) = List.range' seq l.length := by
  induction l generalizing seq with
  | nil => rfl
  | cons ch rest ih =>
    simp only [renumber, List.map_cons, List.length_cons, List.range'_succ]
    rw [ih (seq + 1)]

theorem renumber_length (d : String) (seq : Nat) (l : List Chunk) :
    (renumber d seq l).length = l.length := by
  induction l generalizing seq with
  | nil => rfl
  | cons ch rest ih => simp only [renumber, List.length_cons, ih]

theorem renumber_spec (d : String) (seq : Nat) (l : List Chunk)
    (hl : ∀ x ∈ l, x.doc_id = d) :
    ∀ ch ∈ renumber d seq l,
      ch.doc_id = d ∧ ch.chunk_id = d ++ ":" ++ toString ch.chunk_no := by
  induction l generalizing seq with
  | nil => intro ch hch; simp [renumber] at hch
  | cons x rest ih =>
    intro ch hch
    simp only [renumber, List.mem_cons] at hch
    rcases hch with h | h
    · subst h
      exact ⟨hl x (List.mem_cons_self _ _), rfl⟩
    · exact ih (seq + 1) (fun y hy => hl y (List.mem_cons_of_mem _ hy)) ch h

theorem mem_firstDedupGo (l : List String) :
    ∀ (seen : List String) (x : String),
      x ∈ firstDedupGo l seen ↔ x ∈ l ∧ x ∉ seen := by
  induction l with
  | nil => intro seen x; simp [firstDedupGo]
  | cons a l ih =>
    intro seen x
    simp only [firstDedupGo]
    by_cases ha : a ∈ seen
    · rw [if_pos ha, ih]
      constructor
      · rintro ⟨hx, hxs⟩; exact ⟨List.mem_cons_of_mem _ hx, hxs⟩
      · rintro ⟨hx, hxs⟩
        rcases List.mem_cons.mp hx with h | h
        · subst h; exact absurd ha hxs
        · exact ⟨h, hxs⟩
    · rw [if_neg ha]
      constructor
      · intro hmem
        rcases List.mem_cons.mp hmem with hx | hx
        · subst hx; exact ⟨List.mem_cons_self _ _, ha⟩
        · obtain ⟨h1, h2⟩ := (ih (a :: seen) x).mp hx
          exact ⟨List.mem_cons_of_mem _ h1, fun h => h2 (List.mem_cons_of_mem _ h)⟩
      · rintro ⟨hx, hxs⟩
        rcases List.mem_cons.mp hx with h | h
        · subst h; exact List.mem_cons_self _ _
        · by_cases hxa : x = a
          · subst hxa; exact List.mem_cons_self _ _
          · refine List.mem_cons_of_mem _ ((ih (a :: seen) x).mpr ⟨h, ?_⟩)
            intro hmem
            rcases List.mem_cons.mp hmem with h' | h'
            · exact hxa h'
            · exact hxs h'

theorem nodup_firstDedupGo (l : List String) :
    ∀ seen : List String, (firstDedupGo l seen).Nodup := by
  induction l with
  | nil => intro seen; simp [firstDedupGo]
  | cons a l ih =>
    intro seen
    simp only [firstDedupGo]
    by_cases ha : a ∈ seen
    · rw [if_pos ha]; exact ih seen
    · rw [if_neg ha]
      refine List.nodup_cons.mpr ⟨?_, ih (a :: seen)⟩
      intro hmem
      exact ((mem_firstDedupGo l (a :: seen) a).mp hmem).2 (List.mem_cons_self _ _)

theorem mem_firstDedup (l : List String) (x : String) :
    x ∈ firstDedup l ↔ x ∈ l := by
  unfold firstDedup
  rw [mem_firstDedupGo]
  simp

theorem nodup_firstDedup (l : List String) : (firstDedup l).Nodup :=
  nodup_firstDedupGo l []

theorem flatMap_filter_doc (d : String) :
    ∀ (ds : List String) (f : String → List Chunk),
      (∀ d' ∈ ds, ∀ ch ∈ f d', ch.doc_id = d') → ds.Nodup →
      (ds.flatMap f).filter (fun ch => decide (ch.doc_id = d)) =
        if d ∈ ds then f d else [] := by
  intro ds
  induction ds with
  | nil => intro f _ _; simp
  | cons a ds ih =>
    intro f hf hnd
    rw [List.flatMap_cons, List.filter_append]
    have hnd' := List.nodup_cons.mp hnd
    by_cases had : a = d
    · subst had
      have h1 : (f a).filter (fun ch => decide (ch.doc_id = a)) = f a :=
        List.filter_eq_self.mpr
          (fun ch hch => by simp [hf a (List.mem_cons_self _ _) ch hch])
      have h2 : (ds.flatMap f).filter (fun ch => decide (ch.doc_id = a)) = [] := by
        rw [ih f (fun d' hd' => hf d' (List.mem_cons_of_mem _ hd')) hnd'.2,
          if_neg hnd'.1]
      rw [h1, h2, if_pos (List.mem_cons_self _ _), List.append_nil]
    · have h1 : (f a).filter (fun ch => decide (ch.doc_id = d)) = [] :=
        List.filter_eq_nil_iff.mpr (fun ch hch => by
          have hda := hf a (List.mem_cons_self _ _) ch hch
          simp only [decide_eq_true_eq, hda]
          exact had)
      rw [h1, ih f (fun d' hd' => hf d' (List.mem_cons_of_mem _ hd')) hnd'.2,
        List.nil_append]
      by_cases hd : d ∈ ds
      · rw [if_pos hd, if_pos (List.mem_cons_of_mem _ hd)]
      · rw [if_neg hd, if_neg ?hna]
        case hna =>
          intro hmem
          rcases List.mem_cons.mp hmem with h | h
          · exact had h.symm
          · exact hd h

/-- Claim C1: after resequencing, for every `doc_id` the `chunk_no` values of
that document's chunks are exactly `0, 1, ..., N-1` (as an ordered list,
hence a set with no gaps or duplicates), where `N` is the number of that
document's chunks in the batch, and every output chunk's `chunk_id` is
`"{doc_id}:{chunk_no}"`. -/
theorem resequence_invariant (chunks : List Chunk) (d : String) :
    ((resequence chunks).filter (fun ch => decide (ch.doc_id = d))).map
        (fun ch => ch.chunk_no)
      = List.range ((chunks.filter (fun ch => decide (ch.doc_id = d))).length)
    ∧ ∀ ch ∈ resequence chunks,
        ch.chunk_id = ch.doc_id ++ ":" ++ toString ch.chunk_no := by
  have hgroups : ∀ d' ∈ firstDedup (chunks.map (fun ch => ch.doc_id)),
      ∀ ch ∈ renumber d' 0 (chunks.filter (fun ch => decide (ch.doc_id = d'))),
        ch.doc_id = d' := by
    intro d' _ ch hch
    exact (renumber_spec d' 0 _
      (fun x hx => of_decide_eq_true ((List.mem_filter.mp hx).2)) ch hch).1
  constructor
  · unfold resequence
    rw [flatMap_filter_doc d _ _ hgroups (nodup_firstDedup _)]
    by_cases hd : d ∈ firstDedup (chunks.map (fun ch => ch.doc_id))
    · rw [if_pos hd, renumber_map_chunk_no, List.range_eq_range']
    · rw [if_neg hd]
      have hnone : chunks.filter (fun ch => decide (ch.doc_id = d)) = [] := by
        rw [List.filter_eq_nil_iff]
        intro ch hch hdec
        apply hd
        rw [mem_firstDedup]
        exact List.mem_map.mpr ⟨ch, hch, of_decide_eq_true hdec⟩
      rw [hnone]
      rfl
  · intro ch hch
    unfold resequence at hch
    rcases List.mem_flatMap.mp hch with ⟨d', _, hchd⟩
    obtain ⟨hdoc, hid⟩ := renumber_spec d' 0 _
      (fun x hx => of_decide_eq_true ((List.mem_filter.mp hx).2)) ch hchd
    rw [hid, hdoc]

/-- Witness for C1 at a concrete batch of three chunks over two documents. -/
theorem resequence_invariant_witness :
    ((resequence [cX, cEmpty, cY]).filter (fun ch => decide (ch.doc_id = "docA"))).map
        (fun ch => ch.chunk_no)
      = List.range (([cX, cEmpty, cY].filter (fun ch => decide (ch.doc_id = "docA"))).length)
    ∧ ∀ ch ∈ resequence [cX, cEmpty, cY],
        ch.chunk_id = ch.doc_id ++ ":" ++ toString ch.chunk_no :=
  resequence_invariant [cX, cEmpty, cY] "docA"

theorem flatMap_congr_mem {α β : Type} (ds : List α) (f g : α → List β)
    (h : ∀ d ∈ ds, f d = g d) : ds.flatMap f = ds.flatMap g := by
  induction ds with
  | nil => rfl
  | cons a ds ih =>
    rw [List.flatMap_cons, List.flatMap_cons, h a (List.mem_cons_self _ _),
      ih (fun d hd => h d (List.mem_cons_of_mem _ hd))]

theorem length_flatMap_congr {α β γ : Type} (ds : List α) (f : α → List β) (g : α → List γ)
    (h : ∀ d ∈ ds, (f d).length = (g d).length) :
    (ds.flatMap f).length = (ds.flatMap g).length := by
  induction ds with
  | nil => rfl
  | cons a ds ih =>
    rw [List.flatMap_cons, List.flatMap_cons, List.length_append, List.length_append,
      h a (List.mem_cons_self _ _), ih (fun d hd => h d (List.mem_cons_of_mem _ hd))]

theorem length_flatMap_filter :
    ∀ (ds : List String) (chunks : List Chunk), ds.Nodup →
      (∀ ch ∈ chunks, ch.doc_id ∈ ds) →
      (ds.flatMap (fun d => chunks.filter (fun ch => decide (ch.doc_id = d)))).length
        = chunks.length := by
  intro ds
  induction ds with
  | nil =>
    intro chunks _ hall
    cases chunks with
    | nil => rfl
    | cons c cs => exact absurd (hall c (List.mem_cons_self _ _)) (List.not_mem_nil _)
  | cons a ds ih =>
    intro chunks hnd hall
    have hnd' := List.nodup_cons.mp hnd
    rw [List.flatMap_cons, List.length_append]
    have hrest : ds.flatMap (fun d => chunks.filter (fun ch => decide (ch.doc_id = d)))
        = ds.flatMap (fun d =>
            (chunks.filter (fun ch => !decide (ch.doc_id = a))).filter
              (fun ch => decide (ch.doc_id = d))) := by
      apply flatMap_congr_mem
      intro d hd
      rw [List.filter_filter]
      apply List.filter_congr
      intro ch _
      by_cases hc : ch.doc_id = d
      · have hca : ¬ ch.doc_id = a := by
          rw [hc]; intro h; exact hnd'.1 (h ▸ hd)
        simp [hc, hca]
        intro h
        exact hnd'.1 (h ▸ hd)
      · simp [hc]
    have hsub : ∀ ch ∈ chunks.filter (fun ch => !decide (ch.doc_id = a)),
        ch.doc_id ∈ ds := by
      intro ch hch
      obtain ⟨hmem, hdec⟩ := List.mem_filter.mp hch
      have hne : ¬ ch.doc_id = a := by
        intro h; rw [h] at hdec; simp at hdec
      rcases List.mem_cons.mp (hall ch hmem) with h | h
      · exact absurd h hne
      · exact h
    rw [hrest, ih _ hnd'.2 hsub]
    have hperm := (List.filter_append_perm
      (fun ch => decide (ch.doc_id = a)) chunks).length_eq
    rw [List.length_append] at hperm
    exact hperm

theorem resequence_length (chunks : List Chunk) :
    (resequence chunks).length = chunks.length := by
  unfold resequence
  rw [length_flatMap_congr _ _
    (fun d => chunks.filter (fun ch => decide (ch.doc_id = d)))
    (fun d _ => renumber_length d 0 _)]
  apply length_flatMap_filter _ _ (nodup_firstDedup _)
  intro ch hch
  rw [mem_firstDedup]
  exact List.mem_map.mpr ⟨ch, hch, rfl⟩

theorem insertBatchesGo_text_ne (ok : Nat → Bool) (bs : Nat) :
    ∀ (rows buf : List Chunk) (ci total : Nat) (tr : List (List Chunk)),
      (∀ r ∈ buf, r.text ≠ []) → (∀ b ∈ tr, ∀ r ∈ b, r.text ≠ []) →
      ∀ b ∈ (insertBatchesGo ok bs rows buf ci total tr).2, ∀ r ∈ b, r.text ≠ [] := by
  intro rows
  induction rows with
  | nil =>
    intro buf ci total tr hbuf htr b hb
    simp only [insertBatchesGo] at hb
    by_cases hbe : buf.isEmpty
    · rw [if_pos hbe] at hb
      exact htr b (List.mem_reverse.mp hb)
    · rw [if_neg hbe] at hb
      by_cases hok : ok ci
      · rw [if_pos hok] at hb
        rcases List.mem_cons.mp (List.mem_reverse.mp hb) with h | h
        · exact h ▸ hbuf
        · exact htr b h
      · rw [if_neg hok] at hb
        rcases List.mem_cons.mp (List.mem_reverse.mp hb) with h | h
        · exact h ▸ hbuf
        · exact htr b h
  | cons r rs ih =>
    intro buf ci total tr hbuf htr b hb
    simp only [insertBatchesGo] at hb
    by_cases hre : r.text = []
    · rw [if_pos hre] at hb
      exact ih buf ci total tr hbuf htr b hb
    · rw [if_neg hre] at hb
      have hbufr : ∀ x ∈ buf ++ [r], x.text ≠ [] := by
        intro x hx
        rcases List.mem_append.mp hx with h | h
        · exact hbuf x h
        · rw [List.mem_singleton.mp h]; exact hre
      by_cases hflush : bs ≤ buf.length + 1
      · rw [if_pos hflush] at hb
        by_cases hok : ok ci
        · rw [if_pos hok] at hb
          refine ih [] (ci + 1) _ _ (by simp) ?_ b hb
          intro b' hb'
          rcases List.mem_cons.mp hb' with h | h
          · exact h ▸ hbufr
          · exact htr b' h
        · rw [if_neg hok] at hb
          rcases List.mem_cons.mp (List.mem_reverse.mp hb) with h | h
          · exact h ▸ hbufr
          · exact htr b h
      · rw [if_neg hflush] at hb
        exact ih (buf ++ [r]) ci total tr hbufr htr b hb

/-- Counterexample to C8 at a concrete input: `resequence` applied to a
single chunk with empty text keeps that chunk and assigns it `chunk_no = 0`
— an empty-text chunk does occupy a `chunk_no` slot in the resequenced
output. -/
theorem resequence_keeps_empty_counterexample :
    (resequence [cEmpty]).map (fun ch => (ch.chunk_no, ch.text)) = [(0, [])]
    ∧ cEmpty.text = [] := by
  constructor
  · rfl
  · rfl

/-- Claim C8, amended: the resequencer does not discard empty-text chunks —
it renumbers every input chunk (the output has the same length as the
input, and an empty-text chunk occupies a `chunk_no` slot). Empty-text
chunks are instead skipped later, by `insert_batches` at persistence time:
no batch that reaches the store contains a row with empty text. -/
theorem resequence_drops_nothing (chunks : List Chunk) (ok : Nat → Bool) (bs : Nat) :
    (resequence chunks).length = chunks.length
    ∧ ∀ b ∈ (insert_batches ok chunks bs).2, ∀ r ∈ b, r.text ≠ [] := by
  refine ⟨resequence_length chunks, ?_⟩
  exact insertBatchesGo_text_ne ok bs chunks [] 0 0 []
    (by intro r h; simp at h) (by intro b h; simp at h)

/-- Witness for the amended C8 at a concrete input containing an empty-text
chunk. -/
theorem resequence_drops_nothing_witness :
    (resequence [cEmpty, cX]).length = [cEmpty, cX].length
    ∧ ∀ b ∈ (insert_batches (fun _ => true) [cEmpty, cX] 1).2, ∀ r ∈ b, r.text ≠ [] :=
  resequence_drops_nothing [cEmpty, cX] (fun _ => true) 1

/-! ## The batch extraction loop of `main` (claim C4) -/

/-- Counterexample to C4 at a concrete input: in the batch loop of `main`
(`embeddings.py`), a batch of three files in which the second file's
extraction raises does not continue with the third file and does not record
zero chunks for the failing file — the exception propagates and the whole
batch call fails, yielding none of the other files' chunks. -/
theorem main_extract_counterexample :
    mainExtractLoop [Except.ok [cX], Except.error (), Except.ok [cY]] = Except.error ()
    ∧ mainExtractLoop [Except.ok [cX], Except.error (), Except.ok [cY]] ≠
        Except.ok [cX, cY] := by
  constructor
  · rfl
  · intro h
    simp [mainExtractLoop, Except.map] at h

/-- Claim C4, amended: the batch extraction loop of `main` has no per-file
error handling: if any file's extraction raises, the first such exception
propagates and aborts the whole batch call (no chunks of any file survive);
only when every file extracts successfully does the loop return the
concatenation of all files' chunks. (Per-file isolation exists only in the
separate web upload path of `server/main.py`, which runs the whole pipeline
in a subprocess per file.) -/
theorem main_extract_aborts (pre post : List (Except Unit (List Chunk)))
    (hpre : ∀ r ∈ pre, ∃ cs, r = Except.ok cs) :
    mainExtractLoop (pre ++ Except.error () :: post) = Except.error ()
    ∧ ∀ css : List (List Chunk),
        mainExtractLoop (css.map Except.ok) = Except.ok css.flatten := by
  constructor
  · induction pre with
    | nil => rfl
    | cons r pre ih =>
      obtain ⟨cs, rfl⟩ := hpre r (List.mem_cons_self _ _)
      have hih := ih (fun x hx => hpre x (List.mem_cons_of_mem _ hx))
      show (mainExtractLoop (pre ++ Except.error () :: post)).map
        (fun acc => cs ++ acc) = Except.error ()
      rw [hih]
      rfl
  · intro css
    induction css with
    | nil => rfl
    | cons cs rest ih =>
      simp only [List.map_cons, mainExtractLoop, ih, List.flatten_cons]
      rfl

/-- Witness for the amended C4 at a concrete batch. -/
theorem main_extract_aborts_witness :
    mainExtractLoop ([Except.ok [cX]] ++ Except.error () :: [Except.ok [cY]]) =
      Except.error ()
    ∧ ∀ css : List (List Chunk),
        mainExtractLoop (css.map Except.ok) = Except.ok css.flatten :=
  main_extract_aborts [Except.ok [cX]] [Except.ok [cY]]
    (fun r hr => ⟨[cX], by simpa using hr⟩)

/-! ## The batched writer (claim C5) -/

theorem batchesGo_cons_empty (bs : Nat) (r : Chunk) (rs buf : List Chunk)
    (hre : r.text = []) : batchesGo bs (r :: rs) buf = batchesGo bs rs buf := by
  simp only [batchesGo, if_pos hre]

theorem batchesGo_cons_flush (bs : Nat) (r : Chunk) (rs buf : List Chunk)
    (hre : ¬ r.text = []) (hf : bs ≤ buf.length + 1) :
    batchesGo bs (r :: rs) buf = (buf ++ [r]) :: batchesGo bs rs [] := by
  simp only [batchesGo, if_neg hre, if_pos hf]

theorem batchesGo_cons_buffer (bs : Nat) (r : Chunk) (rs buf : List Chunk)
    (hre : ¬ r.text = []) (hf : ¬ bs ≤ buf.length + 1) :
    batchesGo bs (r :: rs) buf = batchesGo bs rs (buf ++ [r]) := by
  simp only [batchesGo, if_neg hre, if_neg hf]

theorem insertBatchesGo_all_ok (ok : Nat → Bool) (bs : Nat) :
    ∀ (rows buf : List Chunk) (ci total : Nat) (tr : List (List Chunk)),
      (∀ i, i < (batchesGo bs rows buf).length → ok (ci + i) = true) →
      insertBatchesGo ok bs rows buf ci total tr =
        (Except.ok (total + buf.length +
            (rows.filter (fun r => !decide (r.text = []))).length),
          tr.reverse ++ batchesGo bs rows buf) := by
  intro rows
  induction rows with
  | nil =>
    intro buf ci total tr h
    cases buf with
    | nil => simp [insertBatchesGo, batchesGo]
    | cons a l =>
      have hok : ok ci = true := by
        have h0 := h 0 (by simp [batchesGo])
        simpa using h0
      simp [insertBatchesGo, batchesGo, hok, List.reverse_cons]
  | cons r rs ih =>
    intro buf ci total tr h
    by_cases hre : r.text = []
    · rw [batchesGo_cons_empty bs r rs buf hre] at h
      have hrec := ih buf ci total tr h
      simp only [insertBatchesGo, if_pos hre]
      rw [hrec, batchesGo_cons_empty bs r rs buf hre]
      simp [List.filter_cons, hre]
    · by_cases hf : bs ≤ buf.length + 1
      · have hbg := batchesGo_cons_flush bs r rs buf hre hf
        rw [hbg] at h
        have hok : ok ci = true := by
          have h0 := h 0 (by simp)
          simpa using h0
        have hrec := ih [] (ci + 1) (total + (buf.length + 1)) ((buf ++ [r]) :: tr)
          (fun i hi => by
            have hx := h (i + 1) (by simpa using Nat.succ_lt_succ hi)
            rw [show ci + 1 + i = ci + (i + 1) by omega]
            exact hx)
        have hd : (!decide (r.text = [])) = true := by simp [hre]
        have harith : total + (buf.length + 1) + ([] : List Chunk).length +
            (rs.filter (fun r => !decide (r.text = []))).length =
            total + buf.length +
            ((r :: rs).filter (fun r => !decide (r.text = []))).length := by
          rw [List.filter_cons, if_pos hd]
          simp only [List.length_cons, List.length_nil]
          omega
        simp only [insertBatchesGo, if_neg hre, if_pos hf, if_pos hok]
        rw [hrec, harith, hbg]
        simp [List.reverse_cons, List.append_assoc]
      · have hbg := batchesGo_cons_buffer bs r rs buf hre hf
        rw [hbg] at h
        have hrec := ih (buf ++ [r]) ci total tr h
        have hd : (!decide (r.text = [])) = true := by simp [hre]
        have harith : total + (buf ++ [r]).length +
            (rs.filter (fun r => !decide (r.text = []))).length =
            total + buf.length +
            ((r :: rs).filter (fun r => !decide (r.text = []))).length := by
          rw [List.filter_cons, if_pos hd]
          simp only [List.length_cons, List.length_nil, List.length_append]
          omega
        simp only [insertBatchesGo, if_neg hre, if_neg hf]
        rw [hrec, harith, hbg]

theorem insertBatchesGo_first_fail (ok : Nat → Bool) (bs : Nat) :
    ∀ (rows buf : List Chunk) (ci total : Nat) (tr : List (List Chunk)) (j : Nat),
      j < (batchesGo bs rows buf).length → ok (ci + j) = false →
      (∀ i, i < j → ok (ci + i) = true) →
      insertBatchesGo ok bs rows buf ci total tr =
        (Except.error (), tr.reverse ++ (batchesGo bs rows buf).take (j + 1)) := by
  intro rows
  induction rows with
  | nil =>
    intro buf ci total tr j hj hfail hpre
    cases buf with
    | nil =>
      have hlen : (batchesGo bs ([] : List Chunk) []).length = 0 := rfl
      omega
    | cons a l =>
      have hlen : (batchesGo bs ([] : List Chunk) (a :: l)).length = 1 := rfl
      have hj0 : j = 0 := by omega
      subst hj0
      have hok : ok ci = false := by simpa using hfail
      simp [insertBatchesGo, batchesGo, hok, List.reverse_cons]
  | cons r rs ih =>
    intro buf ci total tr j hj hfail hpre
    by_cases hre : r.text = []
    · rw [batchesGo_cons_empty bs r rs buf hre] at hj
      have hrec := ih buf ci total tr j hj hfail hpre
      simp only [insertBatchesGo, if_pos hre]
      rw [hrec, batchesGo_cons_empty bs r rs buf hre]
    · by_cases hf : bs ≤ buf.length + 1
      · have hbg := batchesGo_cons_flush bs r rs buf hre hf
        rw [hbg] at hj
        cases j with
        | zero =>
          have hok : ok ci = false := by simpa using hfail
          simp only [insertBatchesGo, if_neg hre, if_pos hf, hok, Bool.false_eq_true,
            if_false]
          rw [hbg]
          simp [List.reverse_cons, List.append_assoc]
        | succ j' =>
          have hok : ok ci = true := by
            have h0 := hpre 0 (Nat.succ_pos _)
            simpa using h0
          have hrec := ih [] (ci + 1) (total + (buf.length + 1)) ((buf ++ [r]) :: tr) j'
            (by
              simp only [List.length_cons] at hj
              omega)
            (by
              rw [show ci + 1 + j' = ci + (j' + 1) by omega]
              exact hfail)
            (fun i hi => by
              have hx := hpre (i + 1) (Nat.succ_lt_succ hi)
              rw [show ci + 1 + i = ci + (i + 1) by omega]
              exact hx)
          simp only [insertBatchesGo, if_neg hre, if_pos hf, if_pos hok]
          rw [hrec, hbg]
          simp [List.reverse_cons, List.append_assoc, List.take_succ_cons]
      · have hbg := batchesGo_cons_buffer bs r rs buf hre hf
        rw [hbg] at hj
        have hrec := ih (buf ++ [r]) ci total tr j hj hfail hpre
        simp only [insertBatchesGo, if_neg hre, if_neg hf]
        rw [hrec, hbg]

/-- Counterexample to C5 at a concrete input: the store fails the first
write (index 0) but would succeed on any later attempt (index ≥ 1 — a
transient error); yet `insert_batches` with `batch_size = 1` over two
non-empty chunks surfaces the error after a single attempt of the first
batch — the batch is not retried (no second attempt ever happens, although
one would have succeeded) and the second batch is never sent. -/
theorem insert_batches_no_retry_counterexample :
    insert_batches (fun i => decide (i ≠ 0)) [cX, cY] 1 =
      (Except.error (), [[cX]])
    ∧ (fun i => decide (i ≠ 0) : Nat → Bool) 1 = true := by
  constructor
  · rfl
  · rfl

/-- Claim C5, amended: `insert_batches` performs no retry and no backoff.
The batches are sent strictly in order; if the store's call `j` is the
first to fail, the call surfaces the store's error immediately, the trace
of sent batches is exactly the first `j + 1` batches (so the failing batch
was attempted exactly once and no later batch is attempted, while the
already-succeeded batches are not re-sent); if no call fails, every batch
is sent exactly once and the returned total is the number of non-empty-text
rows. The surfaced error carries no batch index or `chunk_id` range beyond
what the store's own exception contains. -/
theorem insert_batches_amended (ok : Nat → Bool) (rows : List Chunk) (bs j : Nat)
    (hj : j < (batches bs rows).length) (hfail : ok j = false)
    (hpre : ∀ i, i < j → ok i = true) :
    insert_batches ok rows bs = (Except.error (), (batches bs rows).take (j + 1))
    ∧ ∀ ok2 : Nat → Bool, (∀ i, i < (batches bs rows).length → ok2 i = true) →
        insert_batches ok2 rows bs =
          (Except.ok ((rows.filter (fun r => !decide (r.text = []))).length),
            batches bs rows) := by
  constructor
  · have hrec := insertBatchesGo_first_fail ok bs rows [] 0 0 [] j hj
      (by simpa using hfail) (fun i hi => by simpa using hpre i hi)
    simpa [insert_batches, batches] using hrec
  · intro ok2 h2
    have hrec := insertBatchesGo_all_ok ok2 bs rows [] 0 0 []
      (fun i hi => by simpa using h2 i hi)
    simpa [insert_batches, batches] using hrec

/-- Witness for the amended C5 at the concrete transient-failure store. -/
theorem insert_batches_amended_witness :
    insert_batches (fun i => decide (i ≠ 0)) [cX, cY] 1 =
      (Except.error (), (batches 1 [cX, cY]).take (0 + 1))
    ∧ ∀ ok2 : Nat → Bool, (∀ i, i < (batches 1 [cX, cY]).length → ok2 i = true) →
        insert_batches ok2 [cX, cY] 1 =
          (Except.ok (([cX, cY].filter (fun r => !decide (r.text = []))).length),
            batches 1 [cX, cY]) :=
  insert_batches_amended (fun i => decide (i ≠ 0)) [cX, cY] 1 0
    (by decide) (by decide) (fun i hi => absurd hi (Nat.not_lt_zero i))

/-! ## Scoped retrieval (claims C6, C7) -/

theorem sqlOrderBy_sorted (key : Row → Nat) (rows : List Row) :
    (sqlOrderBy key rows).Pairwise (fun a b => key a ≤ key b) := by
  have htrans : ∀ a b c : Row, (decide (key a ≤ key b)) = true →
      (decide (key b ≤ key c)) = true → (decide (key a ≤ key c)) = true := by
    intro a b c hab hbc
    simp only [decide_eq_true_eq] at hab hbc ⊢
    omega
  have htotal : ∀ a b : Row,
      ((decide (key a ≤ key b)) || (decide (key b ≤ key a))) = true := by
    intro a b
    simp only [Bool.or_eq_true, decide_eq_true_eq]
    omega
  have h := @List.sorted_mergeSort Row (fun a b => decide (key a ≤ key b))
    htrans htotal rows
  exact h.imp (fun hab => of_decide_eq_true hab)

theorem sqlOrderBy_of_sorted (key : Row → Nat) (rows : List Row)
    (h : rows.Pairwise (fun a b => key a ≤ key b)) : sqlOrderBy key rows = rows :=
  List.mergeSort_of_sorted (h.imp (fun hab => decide_eq_true hab))

/-- Claim C6: `search_docs_auto` requests `max(6·k, 50)` candidate rows
ordered by ascending store distance, applies the scope equality filters to
them, and truncates to the first `k`; the hit list is therefore at most `k`
rows, sorted nearest-first, every hit satisfies the scope filter, and its
length is the minimum of `k` and the number of scope-matching candidates —
fewer than `k` hits when the filtered candidates number fewer than `k`,
with no error. -/
theorem search_docs_auto_spec (table : List Row) (dist : Row → Nat) (k : Nat)
    (symbol docId : Option String) :
    search_docs_auto table dist k symbol docId =
      (((sqlOrderBy dist table).take (max (6 * k) 50)).filter
        (scopeMatch symbol docId)).take k
    ∧ (search_docs_auto table dist k symbol docId).length =
        min k (((sqlOrderBy dist table).take (max (6 * k) 50)).filter
          (scopeMatch symbol docId)).length
    ∧ (search_docs_auto table dist k symbol docId).Pairwise
        (fun a b => dist a ≤ dist b)
    ∧ ∀ r ∈ search_docs_auto table dist k symbol docId,
        scopeMatch symbol docId r = true := by
  have hsorted : (((sqlOrderBy dist table).take (max (6 * k) 50)).filter
      (scopeMatch symbol docId)).Pairwise (fun a b => dist a ≤ dist b) :=
    List.Pairwise.sublist
      ((List.filter_sublist _).trans (List.take_sublist _ _))
      (sqlOrderBy_sorted dist table)
  have heq : search_docs_auto table dist k symbol docId =
      (((sqlOrderBy dist table).take (max (6 * k) 50)).filter
        (scopeMatch symbol docId)).take k := by
    show (sqlOrderBy dist
        (((sqlOrderBy dist table).take (max (k * 6) 50)).filter
          (scopeMatch symbol docId))).take k = _
    rw [Nat.mul_comm k 6, sqlOrderBy_of_sorted _ _ hsorted]
  refine ⟨heq, ?_, ?_, ?_⟩
  · rw [heq, List.length_take]
  · rw [heq]
    exact List.Pairwise.sublist (List.take_sublist _ _) hsorted
  · intro r hr
    rw [heq] at hr
    have hrf := (List.take_sublist _ _).subset hr
    exact (List.mem_filter.mp hrf).2

/-- Witness for C6 at a concrete table and query. -/
theorem search_docs_auto_spec_witness :
    search_docs_auto [rA, rB] (fun r => r.chunk_no) 1 (some "AAPL") none =
      (((sqlOrderBy (fun r => r.chunk_no) [rA, rB]).take (max (6 * 1) 50)).filter
        (scopeMatch (some "AAPL") none)).take 1
    ∧ (search_docs_auto [rA, rB] (fun r => r.chunk_no) 1 (some "AAPL") none).length =
        min 1 (((sqlOrderBy (fun r => r.chunk_no) [rA, rB]).take (max (6 * 1) 50)).filter
          (scopeMatch (some "AAPL") none)).length
    ∧ (search_docs_auto [rA, rB] (fun r => r.chunk_no) 1 (some "AAPL") none).Pairwise
        (fun a b => a.chunk_no ≤ b.chunk_no)
    ∧ ∀ r ∈ search_docs_auto [rA, rB] (fun r => r.chunk_no) 1 (some "AAPL") none,
        scopeMatch (some "AAPL") none r = true :=
  search_docs_auto_spec [rA, rB] (fun r => r.chunk_no) 1 (some "AAPL") none

theorem topDocIdsGo_eq (n : Nat) :
    ∀ (hs : List Row) (acc : List String), acc.length < n →
      topDocIdsGo n hs acc =
        acc.reverse ++
          (firstDedupGo (hs.map (fun h => h.doc_id)) acc).take (n - acc.length) := by
  intro hs
  induction hs with
  | nil => intro acc h; simp [topDocIdsGo, firstDedupGo]
  | cons h hs ih =>
    intro acc hacc
    simp only [topDocIdsGo, List.map_cons, firstDedupGo]
    by_cases hmem : h.doc_id ∈ acc
    · rw [if_pos hmem, if_pos hmem, if_neg (by omega)]
      exact ih acc hacc
    · rw [if_neg hmem, if_neg hmem]
      by_cases hn : n ≤ (h.doc_id :: acc).length
      · rw [if_pos hn]
        have hda : n - acc.length = 1 := by
          simp only [List.length_cons] at hn
          omega
        rw [hda, List.take_succ_cons, List.take_zero, List.reverse_cons]
      · rw [if_neg hn]
        have hlen : (h.doc_id :: acc).length < n := by omega
        rw [ih (h.doc_id :: acc) hlen, List.reverse_cons, List.append_assoc]
        congr 1
        rw [show n - acc.length = (n - (h.doc_id :: acc).length) + 1 from by
          simp only [List.length_cons]; omega]
        rw [List.take_succ_cons]
        rfl

theorem topDocIds_spec (n : Nat) (hn : 0 < n) (hs : List Row) :
    topDocIdsGo n hs [] = (firstDedup (hs.map (fun h => h.doc_id))).take n := by
  have h := topDocIdsGo_eq n hs [] (by simpa using hn)
  simpa [firstDedup] using h

/-- Claim C7: for `expand_top_n > 0`, the expansion selects exactly the
first `expand_top_n` distinct `doc_id`s in the order they first appear in
the hit list (not re-sorted), and maps each selected `doc_id` to the
per-document fetch: up to `max_chunks_per_doc` of that document's rows
ordered by `chunk_no` ascending (original document order). -/
theorem expand_docs_spec (table hits : List Row) (n maxChunksPerDoc : Nat)
    (hn : 0 < n) :
    (expandDocs table hits n maxChunksPerDoc).map Prod.fst =
      (firstDedup (hits.map (fun h => h.doc_id))).take n
    ∧ ∀ pr ∈ expandDocs table hits n maxChunksPerDoc,
        pr.2 = fetchDocChunks table pr.1 maxChunksPerDoc
        ∧ pr.2.Pairwise (fun a b => a.chunk_no ≤ b.chunk_no)
        ∧ (∀ r ∈ pr.2, r.doc_id = pr.1)
        ∧ pr.2.length ≤ maxChunksPerDoc := by
  constructor
  · unfold expandDocs
    by_cases hne : hits = []
    · subst hne
      rw [if_neg (by intro hc; exact hc.2 rfl)]
      simp [firstDedup, firstDedupGo]
    · rw [if_pos ⟨hn, hne⟩, List.map_map]
      have hid : (Prod.fst ∘ fun did =>
          (did, fetchDocChunks table did maxChunksPerDoc)) = fun did => did := rfl
      rw [hid, List.map_id']
      exact topDocIds_spec n hn hits
  · intro pr hpr
    unfold expandDocs at hpr
    by_cases hcond : 0 < n ∧ hits ≠ []
    · rw [if_pos hcond] at hpr
      obtain ⟨did, _, rfl⟩ := List.mem_map.mp hpr
      refine ⟨rfl, ?_, ?_, ?_⟩
      · exact List.Pairwise.sublist (List.take_sublist _ _)
          (sqlOrderBy_sorted (fun r => r.chunk_no) _)
      · intro r hr
        have hrs := (List.take_sublist _ _).subset hr
        simp only [sqlOrderBy] at hrs
        rw [List.mem_mergeSort] at hrs
        exact of_decide_eq_true (List.mem_filter.mp hrs).2
      · show (fetchDocChunks table did maxChunksPerDoc).length ≤ maxChunksPerDoc
        unfold fetchDocChunks
        rw [List.length_take]
        omega
    · rw [if_neg hcond] at hpr
      simp at hpr

/-- Witness for C7 at a concrete table and hit list. -/
theorem expand_docs_spec_witness :
    (expandDocs [rA, rB] [rB, rA, rB] 1 50).map Prod.fst =
      (firstDedup ([rB, rA, rB].map (fun h => h.doc_id))).take 1
    ∧ ∀ pr ∈ expandDocs [rA, rB] [rB, rA, rB] 1 50,
        pr.2 = fetchDocChunks [rA, rB] pr.1 50
        ∧ pr.2.Pairwise (fun a b => a.chunk_no ≤ b.chunk_no)
        ∧ (∀ r ∈ pr.2, r.doc_id = pr.1)
        ∧ pr.2.length ≤ 50 :=
  expand_docs_spec [rA, rB] [rB, rA, rB] 1 50 (by decide)

end SP500Ingest
